import Mathlib

/-!
# Verification of the AVL tree module (src/AVL-Tree)

Shallow embedding of `avl.c` / `avl.h` / `bstnode.h`. Keys are C `int`,
modelled as `Int` (only compared, never subject to overflowing
arithmetic). Values are `void *`, modelled by a type parameter `α`; the
C functions that return either a stored value or `NULL` are modelled
with `Option α` (`none` = `NULL`). A possibly-NULL `AVLTree *` handle is
`Option (AVLTree α)`; mutation through the handle is modelled by
returning the new state.
-/

namespace AvlC

/-- `struct BSTNode` from `bstnode.h`: key, value, stored height, and the
two child pointers (`nil` = `NULL`). -/
inductive BSTNode (α : Type) where
  | nil : BSTNode α
  | node (key : Int) (value : α) (height : Int) (left right : BSTNode α) : BSTNode α
deriving DecidableEq, Repr

/-- `struct AVLTree` from `avl.h`: a stable handle holding the root pointer. -/
structure AVLTree (α : Type) where
  root : BSTNode α
deriving DecidableEq, Repr

/-- `height` (avl.c:74-80): the stored height field, or 0 for `NULL`. -/
def height {α : Type} : BSTNode α → Int
  | .nil => 0
  | .node _ _ h _ _ => h

/-- The `key` field of a node. The value at `nil` stands for the C
dereference `node->key` on a `NULL` pointer, which the rebalancing code
only reaches with a non-NULL child; it is arbitrary. -/
def key0 {α : Type} : BSTNode α → Int
  | .nil => 0
  | .node k _ _ _ _ => k

/-- `rotateRight` (avl.c:209-219): right rotation with the two height
updates. The C code dereferences `node->left`, so it is only meaningful
when the left child is non-NULL; otherwise we leave the tree unchanged
(that call would be undefined behaviour and is never reached by the
rebalancing code on a valid tree). -/
def rotateRight {α : Type} : BSTNode α → BSTNode α
  | .node k v _ (.node lk lv _ ll lr) r =>
      .node lk lv (1 + max (height ll) (1 + max (height lr) (height r))) ll
        (.node k v (1 + max (height lr) (height r)) lr r)
  | t => t

/-- `rotateLeft` (avl.c:244-254): left rotation with the two height
updates; mirror image of `rotateRight`. -/
def rotateLeft {α : Type} : BSTNode α → BSTNode α
  | .node k v _ l (.node rk rv _ rl rr) =>
      .node rk rv (1 + max (1 + max (height l) (height rl)) (height rr))
        (.node k v (1 + max (height l) (height rl)) l rl) rr
  | t => t

/-- Lines 119-148 of `insert_node` (avl.c): after the child named by
`key` has been updated to `l` / `r`, recompute the height, compute the
balance factor, and apply the four rotation cases in source order
(left-left, right-right, left-right, right-left). The height written at
line 120 is recomputed inside the rotations, exactly as in the C code. -/
def rebalance {α : Type} (key k : Int) (v : α) (l r : BSTNode α) : BSTNode α :=
  if height r - height l < -1 ∧ key < key0 l then
    rotateRight (.node k v (1 + max (height l) (height r)) l r)
  else if 1 < height r - height l ∧ key0 r < key then
    rotateLeft (.node k v (1 + max (height l) (height r)) l r)
  else if height r - height l < -1 ∧ key0 l < key then
    rotateRight (.node k v (1 + max (height l) (height r)) (rotateLeft l) r)
  else if 1 < height r - height l ∧ key < key0 r then
    rotateLeft (.node k v (1 + max (height l) (height r)) l (rotateRight r))
  else .node k v (1 + max (height l) (height r)) l r

/-- `insert_node` (avl.c:100-149): create a leaf of height 1 at a NULL
position; otherwise descend right on `key > root->key`, left on
`key < root->key`, update the value in place on equality, and rebalance
on the way out. -/
def insert_node {α : Type} (key : Int) (value : α) (root : BSTNode α) : BSTNode α :=
  match root with
  | .nil => .node key value 1 .nil .nil
  | .node k v _ l r =>
      if k < key then rebalance key k v l (insert_node key value r)
      else if key < k then rebalance key k v (insert_node key value l) r
      else rebalance key k value l r

/-- `lookup` (avl.c:173-185): pure recursive descent. -/
def lookup {α : Type} (key : Int) : BSTNode α → Option α
  | .nil => none
  | .node k v _ l r =>
      if k = key then some v
      else if key < k then lookup key l
      else lookup key r

/-- `createAVLTree` (avl.c:35-41), successful-allocation case: a handle
with a NULL root. -/
def createAVLTree {α : Type} : Option (AVLTree α) := some ⟨.nil⟩

/-- `insert_avl` (avl.c:83-89): on a NULL handle do nothing and report
failure; otherwise replace the root by `insert_node` and report success.
The pair returns the C `bool` result together with the state of the
handle after the call. -/
def insert_avl {α : Type} (key : Int) (value : α) (tree : Option (AVLTree α)) :
    Bool × Option (AVLTree α) :=
  match tree with
  | some t => (true, some ⟨insert_node key value t.root⟩)
  | none => (false, none)

/-- `delete_avl` (avl.c:152-154): the body is `return NULL; //TODO` —
it always answers `NULL` and never mutates the tree. -/
def delete_avl {α : Type} (key : Int) (tree : Option (AVLTree α)) :
    Option α × Option (AVLTree α) :=
  (none, tree)

/-- `lookup_avl` (avl.c:157-162): `NULL` on a NULL handle, otherwise
`lookup` from the root. -/
def lookup_avl {α : Type} (key : Int) (tree : Option (AVLTree α)) : Option α :=
  match tree with
  | none => none
  | some t => lookup key t.root

/-- A public mutating operation of the engine. -/
inductive Op (α : Type) where
  | insert (key : Int) (value : α) : Op α
  | delete (key : Int) : Op α

/-- Effect of one public operation on the handle state. -/
def applyOp {α : Type} (t : Option (AVLTree α)) : Op α → Option (AVLTree α)
  | .insert k v => (insert_avl k v t).2
  | .delete k => (delete_avl k t).2

/-- State of the handle after running a sequence of public operations,
starting from a freshly created empty tree. -/
def runOps {α : Type} (ops : List (Op α)) : Option (AVLTree α) :=
  ops.foldl applyOp createAVLTree

/-- The root node of a handle (`nil` for a NULL handle). -/
def rootOf {α : Type} : Option (AVLTree α) → BSTNode α
  | none => .nil
  | some t => t.root

/-! ## Specification-side predicates -/

/-- Recursively computed (true) height of a subtree, 0 for `nil`. -/
def realHeight {α : Type} : BSTNode α → Int
  | .nil => 0
  | .node _ _ _ l r => 1 + max (realHeight l) (realHeight r)

/-- AVL balance with true subtree heights: at every node the heights of
the two subtrees differ by at most one. -/
def balancedReal {α : Type} : BSTNode α → Bool
  | .nil => true
  | .node _ _ _ l r =>
      decide ((realHeight l - realHeight r).natAbs ≤ 1) && balancedReal l && balancedReal r

/-- AVL balance read off the stored height fields. -/
def balanced {α : Type} : BSTNode α → Bool
  | .nil => true
  | .node _ _ _ l r =>
      decide ((height l - height r).natAbs ≤ 1) && balanced l && balanced r

/-- Every stored height field equals `1 + max` of the children's stored
heights (with 0 for an absent child). -/
def heightsOk {α : Type} : BSTNode α → Bool
  | .nil => true
  | .node _ _ h l r =>
      (h == 1 + max (height l) (height r)) && heightsOk l && heightsOk r

/-- Every key in the subtree satisfies `p`. -/
def allKeys {α : Type} (p : Int → Bool) : BSTNode α → Bool
  | .nil => true
  | .node k _ _ l r => p k && allKeys p l && allKeys p r

/-- Node-local BST ordering: left keys below the node key, right keys
above it, recursively. -/
def bst {α : Type} : BSTNode α → Bool
  | .nil => true
  | .node k _ _ l r =>
      allKeys (fun x => decide (x < k)) l && allKeys (fun x => decide (k < x)) r &&
        bst l && bst r

/-- Keys in in-order traversal order. -/
def inorderKeys {α : Type} : BSTNode α → List Int
  | .nil => []
  | .node k _ _ l r => inorderKeys l ++ k :: inorderKeys r

/-- Number of nodes. -/
def size {α : Type} : BSTNode α → Nat
  | .nil => 0
  | .node _ _ _ l r => 1 + size l + size r

/-- The structure of a tree: keys, stored heights and shape, with the
values erased. -/
def shape {α : Type} : BSTNode α → BSTNode Unit
  | .nil => .nil
  | .node k _ h l r => .node k () h (shape l) (shape r)

/-- The tree leans strictly to the side on which `key` lies relative to
its root key: the auxiliary invariant of the rebalancing scheme, which
compares the inserted key with the child's key to pick the rotation. -/
def leanTo {α : Type} (key : Int) : BSTNode α → Prop
  | .nil => False
  | .node k _ _ l r =>
      (key < k ∧ height l = height r + 1) ∨ (k < key ∧ height r = height l + 1)

/-- Relation between a subtree and its replacement after inserting
`key`: the height is unchanged, or it grew by one and (once the subtree
is at least two levels tall) the result leans toward the inserted key. -/
def grow {α : Type} (key : Int) (t t' : BSTNode α) : Prop :=
  height t' = height t ∨
    (height t' = height t + 1 ∧ (2 ≤ height t' → leanTo key t'))

/-! ## Basic lemmas -/

/-- `height` at `NULL` reads 0. -/
theorem height_nil {α : Type} : height (.nil : BSTNode α) = 0 := rfl

/-- `height` at a node reads the stored field. -/
theorem height_node {α : Type} (k : Int) (v : α) (hh : Int) (l r : BSTNode α) :
    height (.node k v hh l r) = hh := rfl

/-- `key0` at a node reads the key field. -/
theorem key0_node {α : Type} (k : Int) (v : α) (hh : Int) (l r : BSTNode α) :
    key0 (.node k v hh l r) = k := rfl

/-- `lookup` can only return a value stored at a node whose key is the
searched key, so a key that occurs nowhere in the tree is never found. -/
theorem lookup_eq_none_of_not_mem {α : Type} (k : Int) (t : BSTNode α)
    (h : k ∉ inorderKeys t) : lookup k t = none := by
  induction t with
  | nil => rfl
  | node k0 v0 h0 l r ihl ihr =>
    simp only [inorderKeys, List.mem_append, List.mem_cons, not_or] at h
    simp only [lookup]
    rcases h with ⟨hl, hk, hr⟩
    split
    · exact absurd (by omega : k = k0) (by omega)
    · split
      · exact ihl hl
      · exact ihr hr

/-! ## Ordering lemmas -/

/-- Every key of the subtree satisfies an `allKeys` bound. -/
theorem allKeys_mem {α : Type} (p : Int → Bool) (t : BSTNode α)
    (h : allKeys p t = true) : ∀ x ∈ inorderKeys t, p x = true := by
  induction t with
  | nil => intro x hx; simp [inorderKeys] at hx
  | node k v hh l r ihl ihr =>
    simp only [allKeys, Bool.and_eq_true] at h
    intro x hx
    simp only [inorderKeys, List.mem_append, List.mem_cons] at hx
    rcases hx with hx | hx | hx
    · exact ihl h.1.2 x hx
    · exact hx ▸ h.1.1
    · exact ihr h.2 x hx

/-- Weakening of an `allKeys` bound. -/
theorem allKeys_mono {α : Type} (p q : Int → Bool) (h : ∀ x, p x = true → q x = true)
    (t : BSTNode α) (hp : allKeys p t = true) : allKeys q t = true := by
  induction t with
  | nil => rfl
  | node k v hh l r ihl ihr =>
    simp only [allKeys, Bool.and_eq_true] at hp ⊢
    exact ⟨⟨h k hp.1.1, ihl hp.1.2⟩, ihr hp.2⟩

/-- A right rotation touches no key, so it preserves any `allKeys`
bound in both directions. -/
theorem allKeys_rotateRight {α : Type} (p : Int → Bool) (t : BSTNode α) :
    (allKeys p (rotateRight t) = true ↔ allKeys p t = true) := by
  cases t with
  | nil => exact Iff.rfl
  | node k v hh l r =>
    cases l with
    | nil => exact Iff.rfl
    | node lk lv lh ll lr =>
      simp only [rotateRight, allKeys, Bool.and_eq_true]
      tauto

/-- A left rotation touches no key either. -/
theorem allKeys_rotateLeft {α : Type} (p : Int → Bool) (t : BSTNode α) :
    (allKeys p (rotateLeft t) = true ↔ allKeys p t = true) := by
  cases t with
  | nil => exact Iff.rfl
  | node k v hh l r =>
    cases r with
    | nil => exact Iff.rfl
    | node rk rv rh rl rr =>
      simp only [rotateLeft, allKeys, Bool.and_eq_true]
      tauto

/-- `rebalance` only rearranges the node, its children and grandchildren,
so an `allKeys` bound holds of the result exactly when it holds of all
the inputs. -/
theorem allKeys_rebalance {α : Type} (p : Int → Bool) (key k : Int) (v : α)
    (l r : BSTNode α) :
    (allKeys p (rebalance key k v l r) = true ↔
      (p k = true ∧ allKeys p l = true ∧ allKeys p r = true)) := by
  unfold rebalance
  split_ifs <;>
    simp only [allKeys_rotateRight, allKeys_rotateLeft, allKeys, Bool.and_eq_true] <;>
    tauto

/-- Inserting a key that satisfies a bound preserves the bound. -/
theorem allKeys_insert_node {α : Type} (p : Int → Bool) (key : Int) (v : α)
    (t : BSTNode α) (ht : allKeys p t = true) (hk : p key = true) :
    allKeys p (insert_node key v t) = true := by
  induction t with
  | nil => simp [insert_node, allKeys, hk]
  | node k v0 hh l r ihl ihr =>
    simp only [allKeys, Bool.and_eq_true] at ht
    simp only [insert_node]
    split_ifs with h1 h2
    · exact (allKeys_rebalance p key k v0 l _).mpr ⟨ht.1.1, ht.1.2, ihr ht.2⟩
    · exact (allKeys_rebalance p key k v0 _ r).mpr ⟨ht.1.1, ihl ht.1.2, ht.2⟩
    · exact (allKeys_rebalance p key k v l r).mpr ⟨ht.1.1, ht.1.2, ht.2⟩

/-- A right rotation preserves the BST ordering. -/
theorem bst_rotateRight {α : Type} (t : BSTNode α) (h : bst t = true) :
    bst (rotateRight t) = true := by
  cases t with
  | nil => exact h
  | node k v hh l r =>
    cases l with
    | nil => exact h
    | node lk lv lh ll lr =>
      simp only [rotateRight, bst, allKeys, Bool.and_eq_true, decide_eq_true_eq] at h ⊢
      have hlk : lk < k := by tauto
      have hrk : allKeys (fun x => decide (k < x)) r = true := by tauto
      have hr2 : allKeys (fun x => decide (lk < x)) r = true :=
        allKeys_mono _ _ (fun x hx => by
          simp only [decide_eq_true_eq] at hx ⊢; omega) r hrk
      tauto

/-- A left rotation preserves the BST ordering. -/
theorem bst_rotateLeft {α : Type} (t : BSTNode α) (h : bst t = true) :
    bst (rotateLeft t) = true := by
  cases t with
  | nil => exact h
  | node k v hh l r =>
    cases r with
    | nil => exact h
    | node rk rv rh rl rr =>
      simp only [rotateLeft, bst, allKeys, Bool.and_eq_true, decide_eq_true_eq] at h ⊢
      have hrk : k < rk := by tauto
      have hlk : allKeys (fun x => decide (x < k)) l = true := by tauto
      have hl2 : allKeys (fun x => decide (x < rk)) l = true :=
        allKeys_mono _ _ (fun x hx => by
          simp only [decide_eq_true_eq] at hx ⊢; omega) l hlk
      tauto

/-- `rebalance` preserves the BST ordering of the (virtual) node it is
called on. -/
theorem bst_rebalance {α : Type} (key k : Int) (v : α) (l r : BSTNode α)
    (hal : allKeys (fun x => decide (x < k)) l = true)
    (har : allKeys (fun x => decide (k < x)) r = true)
    (bl : bst l = true) (br : bst r = true) :
    bst (rebalance key k v l r) = true := by
  unfold rebalance
  split_ifs
  · exact bst_rotateRight _ (by
      simp only [bst, Bool.and_eq_true]; tauto)
  · exact bst_rotateLeft _ (by
      simp only [bst, Bool.and_eq_true]; tauto)
  · refine bst_rotateRight _ ?_
    have h1 := (allKeys_rotateLeft (fun x => decide (x < k)) l).mpr hal
    have h2 := bst_rotateLeft l bl
    simp only [bst, Bool.and_eq_true]; tauto
  · refine bst_rotateLeft _ ?_
    have h1 := (allKeys_rotateRight (fun x => decide (k < x)) r).mpr har
    have h2 := bst_rotateRight r br
    simp only [bst, Bool.and_eq_true]; tauto
  · simp only [bst, Bool.and_eq_true]; tauto

/-- `insert_node` preserves the BST ordering. -/
theorem bst_insert_node {α : Type} (key : Int) (v : α) (t : BSTNode α)
    (h : bst t = true) : bst (insert_node key v t) = true := by
  induction t with
  | nil => rfl
  | node k v0 hh l r ihl ihr =>
    simp only [bst, Bool.and_eq_true] at h
    obtain ⟨⟨⟨hal, har⟩, bl⟩, br⟩ := h
    simp only [insert_node]
    split_ifs with h1 h2
    · exact bst_rebalance key k v0 l _ hal
        (allKeys_insert_node _ key v r har (by simpa using h1)) bl (ihr br)
    · exact bst_rebalance key k v0 _ r
        (allKeys_insert_node _ key v l hal (by simpa using h2)) har (ihl bl) br
    · exact bst_rebalance key k v l r hal har bl br

/-! ## Lookup lemmas -/

/-- On an ordered tree, a right rotation does not change any lookup
result. -/
theorem lookup_rotateRight {α : Type} (key : Int) (t : BSTNode α)
    (h : bst t = true) : lookup key (rotateRight t) = lookup key t := by
  cases t with
  | nil => rfl
  | node k v hh l r =>
    cases l with
    | nil => rfl
    | node lk lv lh ll lr =>
      simp only [bst, allKeys, Bool.and_eq_true, decide_eq_true_eq] at h
      have hlk : lk < k := by tauto
      simp only [rotateRight, lookup]
      split_ifs <;> first | rfl | omega

/-- On an ordered tree, a left rotation does not change any lookup
result. -/
theorem lookup_rotateLeft {α : Type} (key : Int) (t : BSTNode α)
    (h : bst t = true) : lookup key (rotateLeft t) = lookup key t := by
  cases t with
  | nil => rfl
  | node k v hh l r =>
    cases r with
    | nil => rfl
    | node rk rv rh rl rr =>
      simp only [bst, allKeys, Bool.and_eq_true, decide_eq_true_eq] at h
      have hrk : k < rk := by tauto
      simp only [rotateLeft, lookup]
      split_ifs <;> first | rfl | omega

/-- On an ordered node, `rebalance` does not change any lookup result. -/
theorem lookup_rebalance {α : Type} (key2 key k : Int) (v : α) (l r : BSTNode α)
    (hal : allKeys (fun x => decide (x < k)) l = true)
    (har : allKeys (fun x => decide (k < x)) r = true)
    (bl : bst l = true) (br : bst r = true) :
    lookup key2 (rebalance key k v l r) =
      lookup key2 (BSTNode.node k v (1 + max (height l) (height r)) l r) := by
  have hbst : bst (BSTNode.node k v (1 + max (height l) (height r)) l r) = true := by
    simp only [bst, Bool.and_eq_true]; tauto
  unfold rebalance
  split_ifs
  · exact lookup_rotateRight key2 _ hbst
  · exact lookup_rotateLeft key2 _ hbst
  · have hb2 : bst (BSTNode.node k v (1 + max (height l) (height r))
        (rotateLeft l) r) = true := by
      have h1 := (allKeys_rotateLeft (fun x => decide (x < k)) l).mpr hal
      have h2 := bst_rotateLeft l bl
      simp only [bst, Bool.and_eq_true]; tauto
    rw [lookup_rotateRight key2 _ hb2]
    simp only [lookup]
    rw [lookup_rotateLeft key2 l bl]
  · have hb2 : bst (BSTNode.node k v (1 + max (height l) (height r))
        l (rotateRight r)) = true := by
      have h1 := (allKeys_rotateRight (fun x => decide (k < x)) r).mpr har
      have h2 := bst_rotateRight r br
      simp only [bst, Bool.and_eq_true]; tauto
    rw [lookup_rotateLeft key2 _ hb2]
    simp only [lookup]
    rw [lookup_rotateRight key2 r br]
  · rfl

/-- Functional behaviour of `insert_node` on an ordered tree: the
inserted key now maps to the inserted value and every other key keeps
its previous binding. -/
theorem lookup_insert_node {α : Type} (key key2 : Int) (v : α) (t : BSTNode α)
    (h : bst t = true) :
    lookup key2 (insert_node key v t) =
      if key = key2 then some v else lookup key2 t := by
  induction t with
  | nil =>
    simp only [insert_node, lookup]
    split_ifs <;> first | rfl | omega
  | node k v0 hh l r ihl ihr =>
    simp only [bst, Bool.and_eq_true] at h
    obtain ⟨⟨⟨hal, har⟩, bl⟩, br⟩ := h
    simp only [insert_node]
    rcases lt_trichotomy k key with h1 | h1 | h1
    · rw [if_pos h1]
      rw [lookup_rebalance key2 key k v0 l _ hal
        (allKeys_insert_node _ key v r har (by simpa using h1)) bl
        (bst_insert_node key v r br)]
      simp only [lookup]
      rw [ihr br]
      split_ifs <;> first | rfl | omega
    · subst h1
      rw [if_neg (by omega), if_neg (by omega)]
      rw [lookup_rebalance key2 k k v l r hal har bl br]
      simp only [lookup]
      split_ifs <;> first | rfl | omega
    · rw [if_neg (by omega), if_pos h1]
      rw [lookup_rebalance key2 key k v0 _ r
        (allKeys_insert_node _ key v l hal (by simpa using h1)) har
        (bst_insert_node key v l bl) br]
      simp only [lookup]
      rw [ihl bl]
      split_ifs <;> first | rfl | omega

/-- An `allKeys` bound over an ordered subtree yields strict sortedness
of the in-order key list. -/
theorem pairwise_inorder {α : Type} (t : BSTNode α) (h : bst t = true) :
    List.Pairwise (fun a b => a < b) (inorderKeys t) := by
  induction t with
  | nil => exact List.Pairwise.nil
  | node k v hh l r ihl ihr =>
    simp only [bst, Bool.and_eq_true] at h
    obtain ⟨⟨⟨hal, har⟩, bl⟩, br⟩ := h
    simp only [inorderKeys]
    rw [List.pairwise_append]
    refine ⟨ihl bl, ?_, ?_⟩
    · rw [List.pairwise_cons]
      refine ⟨fun b hb => ?_, ihr br⟩
      have := allKeys_mem _ r har b hb
      simpa using this
    · intro a ha b hb
      have ha2 : a < k := by
        have := allKeys_mem _ l hal a ha
        simpa using this
      rcases List.mem_cons.mp hb with hb | hb
      · omega
      · have hb2 : k < b := by
          have := allKeys_mem _ r har b hb
          simpa using this
        omega

/-! ## Height and balance lemmas -/

/-- With correct stored heights, every height is nonnegative. -/
theorem height_nonneg {α : Type} (t : BSTNode α) (h : heightsOk t = true) :
    0 ≤ height t := by
  induction t with
  | nil => simp [height]
  | node k v hh l r ihl ihr =>
    simp only [heightsOk, Bool.and_eq_true, beq_iff_eq] at h
    obtain ⟨⟨he, okl⟩, okr⟩ := h
    have h1 := ihl okl
    have h2 := ihr okr
    simp only [height]
    omega

/-- A tree of positive stored height is a node. -/
theorem node_of_height_pos {α : Type} (t : BSTNode α) (hp : 0 < height t) :
    ∃ k v hh l r, t = BSTNode.node k v hh l r := by
  cases t with
  | nil => simp [height] at hp
  | node k v hh l r => exact ⟨k, v, hh, l, r, rfl⟩

/-- When the recomputed balance factor is within bounds, none of the
four rotation conditions fires and `rebalance` just rewrites the height
field. -/
theorem rebalance_noRotation {α : Type} (key k : Int) (v : α) (l r : BSTNode α)
    (h1 : height r - height l < 2) (h2 : height l - height r < 2) :
    rebalance key k v l r = .node k v (1 + max (height l) (height r)) l r := by
  unfold rebalance
  rw [if_neg (by rintro ⟨c, -⟩; omega), if_neg (by rintro ⟨c, -⟩; omega),
    if_neg (by rintro ⟨c, -⟩; omega), if_neg (by rintro ⟨c, -⟩; omega)]

/-- Behaviour of `rebalance` in every situation insertion can create: a
balance factor within `[-1, 1]` is left alone, and a balance factor of
`±2` whose heavy child leans toward the inserted key is repaired by the
matching rotation case, restoring the height the subtree had before the
insertion. Returns correctness of the stored heights in the result, its
balance, and its resulting height. -/
theorem rebalance_ok {α : Type} (key k : Int) (v : α) (l r : BSTNode α)
    (hOkL : heightsOk l = true) (hOkR : heightsOk r = true)
    (hBalL : balanced l = true) (hBalR : balanced r = true)
    (hcase : (height r - height l).natAbs ≤ 1 ∨
      (height r - height l = 2 ∧ leanTo key r) ∨
      (height l - height r = 2 ∧ leanTo key l)) :
    heightsOk (rebalance key k v l r) = true ∧
      balanced (rebalance key k v l r) = true ∧
      (((height r - height l).natAbs ≤ 1 ∧
          height (rebalance key k v l r) = 1 + max (height l) (height r)) ∨
        ((height r - height l).natAbs = 2 ∧
          height (rebalance key k v l r) = max (height l) (height r))) := by
  have hl0 := height_nonneg l hOkL
  have hr0 := height_nonneg r hOkR
  rcases hcase with hc | ⟨hc, hlean⟩ | ⟨hc, hlean⟩
  · rw [rebalance_noRotation key k v l r (by omega) (by omega)]
    refine ⟨?_, ?_, Or.inl ⟨hc, rfl⟩⟩
    · simp only [heightsOk, height_node, height_nil, Bool.and_eq_true, beq_iff_eq]
      repeat' apply And.intro
      all_goals first | trivial | assumption | omega
    · simp only [balanced, height_node, height_nil, Bool.and_eq_true, decide_eq_true_eq]
      repeat' apply And.intro
      all_goals first | trivial | assumption | omega
  · -- balance factor +2: the right child exists
    obtain ⟨rk, rv, rh, rl, rr, rfl⟩ := node_of_height_pos r (by omega)
    simp only [height_node, height_nil] at hc hr0
    simp only [heightsOk, Bool.and_eq_true, beq_iff_eq] at hOkR
    obtain ⟨⟨he, hOkRl⟩, hOkRr⟩ := hOkR
    simp only [balanced, Bool.and_eq_true, decide_eq_true_eq] at hBalR
    obtain ⟨⟨hba, hBalRl⟩, hBalRr⟩ := hBalR
    have hrl0 := height_nonneg rl hOkRl
    have hrr0 := height_nonneg rr hOkRr
    simp only [leanTo] at hlean
    rcases hlean with ⟨hkey, hlh⟩ | ⟨hkey, hlh⟩
    · -- key below the right child's key: right-left double rotation
      obtain ⟨pk, pv, ph, pa, pb, rfl⟩ := node_of_height_pos rl (by omega)
      simp only [height_node, height_nil] at hlh he hrl0
      simp only [heightsOk, Bool.and_eq_true, beq_iff_eq] at hOkRl
      obtain ⟨⟨hpe, hOkPa⟩, hOkPb⟩ := hOkRl
      simp only [balanced, Bool.and_eq_true, decide_eq_true_eq] at hBalRl
      obtain ⟨⟨hpb, hBalPa⟩, hBalPb⟩ := hBalRl
      have hpa0 := height_nonneg pa hOkPa
      have hpb0 := height_nonneg pb hOkPb
      have e1 : rebalance key k v l (.node rk rv rh (.node pk pv ph pa pb) rr) =
          rotateLeft (.node k v
            (1 + max (height l) (height (BSTNode.node rk rv rh
              (BSTNode.node pk pv ph pa pb) rr))) l
            (rotateRight (.node rk rv rh (.node pk pv ph pa pb) rr))) := by
        unfold rebalance
        rw [if_neg (by rintro ⟨c, -⟩; simp only [height_node, height_nil] at c; omega),
          if_neg (by rintro ⟨-, c⟩; simp only [key0_node] at c; omega),
          if_neg (by rintro ⟨c, -⟩; simp only [height_node, height_nil] at c; omega),
          if_pos ⟨by simp only [height_node, height_nil]; omega, by simp only [key0_node]; omega⟩]
      rw [e1]
      simp only [rotateRight, rotateLeft]
      refine ⟨?_, ?_, Or.inr ⟨?_, ?_⟩⟩
      · simp only [heightsOk, height_node, height_nil, Bool.and_eq_true, beq_iff_eq]
        repeat' apply And.intro
        all_goals first | trivial | assumption | omega
      · simp only [balanced, height_node, height_nil, Bool.and_eq_true, decide_eq_true_eq]
        repeat' apply And.intro
        all_goals first | trivial | assumption | omega
      · simp only [height_node, height_nil]
        omega
      · simp only [height_node, height_nil]
        omega
    · -- key above the right child's key: single left rotation
      have e1 : rebalance key k v l (.node rk rv rh rl rr) =
          rotateLeft (.node k v
            (1 + max (height l) (height (BSTNode.node rk rv rh rl rr))) l
            (.node rk rv rh rl rr)) := by
        unfold rebalance
        rw [if_neg (by rintro ⟨c, -⟩; simp only [height_node, height_nil] at c; omega),
          if_pos ⟨by simp only [height_node, height_nil]; omega, by simp only [key0_node]; omega⟩]
      rw [e1]
      simp only [rotateLeft]
      refine ⟨?_, ?_, Or.inr ⟨?_, ?_⟩⟩
      · simp only [heightsOk, height_node, height_nil, Bool.and_eq_true, beq_iff_eq]
        repeat' apply And.intro
        all_goals first | trivial | assumption | omega
      · simp only [balanced, height_node, height_nil, Bool.and_eq_true, decide_eq_true_eq]
        repeat' apply And.intro
        all_goals first | trivial | assumption | omega
      · simp only [height_node, height_nil]
        omega
      · simp only [height_node, height_nil]
        omega
  · -- balance factor -2: the left child exists
    obtain ⟨lk, lv, lh, ll, lr, rfl⟩ := node_of_height_pos l (by omega)
    simp only [height_node, height_nil] at hc hl0
    simp only [heightsOk, Bool.and_eq_true, beq_iff_eq] at hOkL
    obtain ⟨⟨he, hOkLl⟩, hOkLr⟩ := hOkL
    simp only [balanced, Bool.and_eq_true, decide_eq_true_eq] at hBalL
    obtain ⟨⟨hba, hBalLl⟩, hBalLr⟩ := hBalL
    have hll0 := height_nonneg ll hOkLl
    have hlr0 := height_nonneg lr hOkLr
    simp only [leanTo] at hlean
    rcases hlean with ⟨hkey, hlh⟩ | ⟨hkey, hlh⟩
    · -- key below the left child's key: single right rotation
      have e1 : rebalance key k v (.node lk lv lh ll lr) r =
          rotateRight (.node k v
            (1 + max (height (BSTNode.node lk lv lh ll lr)) (height r))
            (.node lk lv lh ll lr) r) := by
        unfold rebalance
        rw [if_pos ⟨by simp only [height_node, height_nil]; omega, by simp only [key0_node]; omega⟩]
      rw [e1]
      simp only [rotateRight]
      refine ⟨?_, ?_, Or.inr ⟨?_, ?_⟩⟩
      · simp only [heightsOk, height_node, height_nil, Bool.and_eq_true, beq_iff_eq]
        repeat' apply And.intro
        all_goals first | trivial | assumption | omega
      · simp only [balanced, height_node, height_nil, Bool.and_eq_true, decide_eq_true_eq]
        repeat' apply And.intro
        all_goals first | trivial | assumption | omega
      · simp only [height_node, height_nil]
        omega
      · simp only [height_node, height_nil]
        omega
    · -- key above the left child's key: left-right double rotation
      obtain ⟨qk, qv, qh, qa, qb, rfl⟩ := node_of_height_pos lr (by omega)
      simp only [height_node, height_nil] at hlh he hlr0
      simp only [heightsOk, Bool.and_eq_true, beq_iff_eq] at hOkLr
      obtain ⟨⟨hqe, hOkQa⟩, hOkQb⟩ := hOkLr
      simp only [balanced, Bool.and_eq_true, decide_eq_true_eq] at hBalLr
      obtain ⟨⟨hqb, hBalQa⟩, hBalQb⟩ := hBalLr
      have hqa0 := height_nonneg qa hOkQa
      have hqb0 := height_nonneg qb hOkQb
      have e1 : rebalance key k v (.node lk lv lh ll (.node qk qv qh qa qb)) r =
          rotateRight (.node k v
            (1 + max (height (BSTNode.node lk lv lh ll
              (BSTNode.node qk qv qh qa qb))) (height r))
            (rotateLeft (.node lk lv lh ll (.node qk qv qh qa qb))) r) := by
        unfold rebalance
        rw [if_neg (by rintro ⟨-, c⟩; simp only [key0_node] at c; omega),
          if_neg (by rintro ⟨c, -⟩; simp only [height_node, height_nil] at c; omega),
          if_pos ⟨by simp only [height_node, height_nil]; omega, by simp only [key0_node]; omega⟩]
      rw [e1]
      simp only [rotateRight, rotateLeft]
      refine ⟨?_, ?_, Or.inr ⟨?_, ?_⟩⟩
      · simp only [heightsOk, height_node, height_nil, Bool.and_eq_true, beq_iff_eq]
        repeat' apply And.intro
        all_goals first | trivial | assumption | omega
      · simp only [balanced, height_node, height_nil, Bool.and_eq_true, decide_eq_true_eq]
        repeat' apply And.intro
        all_goals first | trivial | assumption | omega
      · simp only [height_node, height_nil]
        omega
      · simp only [height_node, height_nil]
        omega

/-- Main insertion invariant: on a tree with correct stored heights and
AVL balance, `insert_node` keeps both, and the height either stays or
grows by one with the result leaning toward the inserted key (the
`grow` relation), which is exactly what the parent's rotation-selection
by key comparison relies on. -/
theorem insert_hb {α : Type} (key : Int) (v : α) (t : BSTNode α)
    (hOk : heightsOk t = true) (hBal : balanced t = true) :
    heightsOk (insert_node key v t) = true ∧
      balanced (insert_node key v t) = true ∧
      grow key t (insert_node key v t) := by
  induction t with
  | nil =>
    refine ⟨?_, ?_, ?_⟩
    · simp only [insert_node, heightsOk, height_nil, Bool.and_eq_true, beq_iff_eq]
      repeat' apply And.intro
      all_goals first | trivial | omega
    · simp only [insert_node, balanced, height_nil, Bool.and_eq_true, decide_eq_true_eq]
      repeat' apply And.intro
      all_goals first | trivial | omega
    · simp only [insert_node, grow, height_node, height_nil]
      exact Or.inr ⟨by omega, fun h2 => absurd h2 (by omega)⟩
  | node k0 v0 hh l r ihl ihr =>
    simp only [heightsOk, Bool.and_eq_true, beq_iff_eq] at hOk
    obtain ⟨⟨hhe, hOkL⟩, hOkR⟩ := hOk
    simp only [balanced, Bool.and_eq_true, decide_eq_true_eq] at hBal
    obtain ⟨⟨hbb, hBalL⟩, hBalR⟩ := hBal
    have hl0 := height_nonneg l hOkL
    have hr0 := height_nonneg r hOkR
    simp only [insert_node]
    rcases lt_trichotomy k0 key with h1 | h1 | h1
    · -- descend right
      rw [if_pos h1]
      obtain ⟨hOkR2, hBalR2, hGrow⟩ := ihr hOkR hBalR
      rcases hGrow with hsame | ⟨hgrew, hlean⟩
      · -- right subtree kept its height: no rotation can fire
        obtain ⟨hok2, hbal2, hres⟩ := rebalance_ok key k0 v0 l (insert_node key v r)
          hOkL hOkR2 hBalL hBalR2 (Or.inl (by omega))
        refine ⟨hok2, hbal2, ?_⟩
        rcases hres with ⟨hna, hres⟩ | ⟨hna, hres⟩
        · simp only [grow, height_node]
          exact Or.inl (by omega)
        · exfalso; omega
      · rcases (show height r = height l - 1 ∨ height r = height l ∨
            height r = height l + 1 from by omega) with h3 | h3 | h3
        · -- grew into the shorter side: still balanced, height unchanged
          obtain ⟨hok2, hbal2, hres⟩ := rebalance_ok key k0 v0 l (insert_node key v r)
            hOkL hOkR2 hBalL hBalR2 (Or.inl (by omega))
          refine ⟨hok2, hbal2, ?_⟩
          rcases hres with ⟨hna, hres⟩ | ⟨hna, hres⟩
          · simp only [grow, height_node]
            exact Or.inl (by omega)
          · exfalso; omega
        · -- grew from even: no rotation, the node itself grows and leans
          rw [rebalance_noRotation key k0 v0 l (insert_node key v r) (by omega) (by omega)]
          refine ⟨?_, ?_, ?_⟩
          · simp only [heightsOk, height_node, Bool.and_eq_true, beq_iff_eq]
            repeat' apply And.intro
            all_goals first | trivial | assumption | omega
          · simp only [balanced, height_node, Bool.and_eq_true, decide_eq_true_eq]
            repeat' apply And.intro
            all_goals first | trivial | assumption | omega
          · simp only [grow, height_node, leanTo]
            exact Or.inr ⟨by omega, fun h2 => Or.inr ⟨h1, by omega⟩⟩
        · -- grew past the left side: the matching rotation restores the height
          obtain ⟨hok2, hbal2, hres⟩ := rebalance_ok key k0 v0 l (insert_node key v r)
            hOkL hOkR2 hBalL hBalR2 (Or.inr (Or.inl ⟨by omega, hlean (by omega)⟩))
          refine ⟨hok2, hbal2, ?_⟩
          rcases hres with ⟨hna, hres⟩ | ⟨hna, hres⟩
          · exfalso; omega
          · simp only [grow, height_node]
            exact Or.inl (by omega)
    · -- equal keys: value update in place, heights unchanged
      subst h1
      rw [if_neg (by omega), if_neg (by omega)]
      rw [rebalance_noRotation k0 k0 v l r (by omega) (by omega)]
      refine ⟨?_, ?_, ?_⟩
      · simp only [heightsOk, height_node, Bool.and_eq_true, beq_iff_eq]
        repeat' apply And.intro
        all_goals first | trivial | assumption | omega
      · simp only [balanced, height_node, Bool.and_eq_true, decide_eq_true_eq]
        repeat' apply And.intro
        all_goals first | trivial | assumption | omega
      · simp only [grow, height_node]
        exact Or.inl (by omega)
    · -- descend left
      rw [if_neg (by omega), if_pos h1]
      obtain ⟨hOkL2, hBalL2, hGrow⟩ := ihl hOkL hBalL
      rcases hGrow with hsame | ⟨hgrew, hlean⟩
      · obtain ⟨hok2, hbal2, hres⟩ := rebalance_ok key k0 v0 (insert_node key v l) r
          hOkL2 hOkR hBalL2 hBalR (Or.inl (by omega))
        refine ⟨hok2, hbal2, ?_⟩
        rcases hres with ⟨hna, hres⟩ | ⟨hna, hres⟩
        · simp only [grow, height_node]
          exact Or.inl (by omega)
        · exfalso; omega
      · rcases (show height l = height r - 1 ∨ height l = height r ∨
            height l = height r + 1 from by omega) with h3 | h3 | h3
        · obtain ⟨hok2, hbal2, hres⟩ := rebalance_ok key k0 v0 (insert_node key v l) r
            hOkL2 hOkR hBalL2 hBalR (Or.inl (by omega))
          refine ⟨hok2, hbal2, ?_⟩
          rcases hres with ⟨hna, hres⟩ | ⟨hna, hres⟩
          · simp only [grow, height_node]
            exact Or.inl (by omega)
          · exfalso; omega
        · rw [rebalance_noRotation key k0 v0 (insert_node key v l) r (by omega) (by omega)]
          refine ⟨?_, ?_, ?_⟩
          · simp only [heightsOk, height_node, Bool.and_eq_true, beq_iff_eq]
            repeat' apply And.intro
            all_goals first | trivial | assumption | omega
          · simp only [balanced, height_node, Bool.and_eq_true, decide_eq_true_eq]
            repeat' apply And.intro
            all_goals first | trivial | assumption | omega
          · simp only [grow, height_node, leanTo]
            exact Or.inr ⟨by omega, fun h2 => Or.inl ⟨h1, by omega⟩⟩
        · obtain ⟨hok2, hbal2, hres⟩ := rebalance_ok key k0 v0 (insert_node key v l) r
            hOkL2 hOkR hBalL2 hBalR (Or.inr (Or.inr ⟨by omega, hlean (by omega)⟩))
          refine ⟨hok2, hbal2, ?_⟩
          rcases hres with ⟨hna, hres⟩ | ⟨hna, hres⟩
          · exfalso; omega
          · simp only [grow, height_node]
            exact Or.inl (by omega)

/-- With correct stored heights, the stored height is the true height. -/
theorem height_eq_realHeight {α : Type} (t : BSTNode α) (h : heightsOk t = true) :
    height t = realHeight t := by
  induction t with
  | nil => rfl
  | node k v hh l r ihl ihr =>
    simp only [heightsOk, Bool.and_eq_true, beq_iff_eq] at h
    obtain ⟨⟨he, okl⟩, okr⟩ := h
    simp only [height_node, realHeight]
    rw [← ihl okl, ← ihr okr]
    exact he

/-- Stored-height balance plus height correctness give balance with
respect to true subtree heights. -/
theorem balancedReal_of {α : Type} (t : BSTNode α) (hOk : heightsOk t = true)
    (hBal : balanced t = true) : balancedReal t = true := by
  induction t with
  | nil => rfl
  | node k v hh l r ihl ihr =>
    simp only [heightsOk, Bool.and_eq_true, beq_iff_eq] at hOk
    obtain ⟨⟨he, okl⟩, okr⟩ := hOk
    simp only [balanced, Bool.and_eq_true, decide_eq_true_eq] at hBal
    obtain ⟨⟨hbb, bl⟩, br⟩ := hBal
    simp only [balancedReal, Bool.and_eq_true, decide_eq_true_eq]
    refine ⟨⟨?_, ihl okl bl⟩, ihr okr br⟩
    rw [← height_eq_realHeight l okl, ← height_eq_realHeight r okr]
    exact hbb

/-- The three structural invariants are preserved by every public
operation, starting from any state that satisfies them. -/
theorem foldl_applyOp_good {α : Type} (ops : List (Op α)) (s : Option (AVLTree α))
    (hs : heightsOk (rootOf s) = true ∧ balanced (rootOf s) = true ∧
      bst (rootOf s) = true) :
    heightsOk (rootOf (List.foldl applyOp s ops)) = true ∧
      balanced (rootOf (List.foldl applyOp s ops)) = true ∧
      bst (rootOf (List.foldl applyOp s ops)) = true := by
  induction ops generalizing s with
  | nil => simpa using hs
  | cons op ops ih =>
    simp only [List.foldl_cons]
    apply ih
    cases op with
    | delete k => simpa [applyOp, delete_avl] using hs
    | insert k v =>
      cases s with
      | none => exact ⟨rfl, rfl, rfl⟩
      | some t =>
        simp only [applyOp, insert_avl, rootOf] at hs ⊢
        obtain ⟨a, b, c⟩ := hs
        obtain ⟨x, y, -⟩ := insert_hb k v t.root a b
        exact ⟨x, y, bst_insert_node k v t.root c⟩

/-- Every state reachable by public operations from a fresh tree
satisfies height correctness, AVL balance and BST ordering. -/
theorem runOps_good {α : Type} (ops : List (Op α)) :
    heightsOk (rootOf (runOps (α := α) ops)) = true ∧
      balanced (rootOf (runOps (α := α) ops)) = true ∧
      bst (rootOf (runOps (α := α) ops)) = true := by
  unfold runOps
  exact foldl_applyOp_good ops createAVLTree ⟨rfl, rfl, rfl⟩

/-! ## Upsert lemmas -/

/-- On an ordered tree, a key that occurs in the key list is found by
`lookup`. -/
theorem lookup_ne_none_of_mem {α : Type} (k : Int) (t : BSTNode α)
    (hb : bst t = true) (hm : k ∈ inorderKeys t) : lookup k t ≠ none := by
  induction t with
  | nil => simp [inorderKeys] at hm
  | node k0 v0 hh l r ihl ihr =>
    simp only [bst, Bool.and_eq_true] at hb
    obtain ⟨⟨⟨hal, har⟩, bl⟩, br⟩ := hb
    simp only [inorderKeys, List.mem_append, List.mem_cons] at hm
    simp only [lookup]
    rcases hm with hm | hm | hm
    · have hk : k < k0 := by
        have := allKeys_mem _ l hal k hm
        simpa using this
      rw [if_neg (by omega), if_pos hk]
      exact ihl bl hm
    · rw [if_pos hm.symm]
      simp
    · have hk : k0 < k := by
        have := allKeys_mem _ r har k hm
        simpa using this
      rw [if_neg (by omega), if_neg (by omega)]
      exact ihr br hm

/-- Trees of equal shape have equal stored root heights. -/
theorem height_of_shape_eq {α : Type} (a b : BSTNode α) (h : shape a = shape b) :
    height a = height b := by
  cases a <;> cases b <;> simp_all [shape, height]

/-- Trees of equal shape have equal node counts. -/
theorem size_of_shape_eq {α : Type} (a b : BSTNode α) (h : shape a = shape b) :
    size a = size b := by
  induction a generalizing b with
  | nil => cases b <;> simp_all [shape, size]
  | node k v hh l r ihl ihr =>
    cases b with
    | nil => simp_all [shape]
    | node k2 v2 h2 l2 r2 =>
      simp only [shape, BSTNode.node.injEq] at h
      obtain ⟨-, -, -, e4, e5⟩ := h
      simp only [size]
      rw [ihl l2 e4, ihr r2 e5]

/-- Inserting a key that `lookup` already finds only replaces the value
at that node: the shape (keys, heights, structure) is unchanged and the
key now maps to the new value. -/
theorem upsert_shape {α : Type} (key : Int) (v2 : α) (t : BSTNode α)
    (hOk : heightsOk t = true) (hBal : balanced t = true)
    (hfound : lookup key t ≠ none) :
    shape (insert_node key v2 t) = shape t ∧
      lookup key (insert_node key v2 t) = some v2 := by
  induction t with
  | nil => simp [lookup] at hfound
  | node k0 v0 hh l r ihl ihr =>
    simp only [heightsOk, Bool.and_eq_true, beq_iff_eq] at hOk
    obtain ⟨⟨hhe, hOkL⟩, hOkR⟩ := hOk
    simp only [balanced, Bool.and_eq_true, decide_eq_true_eq] at hBal
    obtain ⟨⟨hbb, hBalL⟩, hBalR⟩ := hBal
    simp only [lookup] at hfound
    simp only [insert_node]
    rcases lt_trichotomy k0 key with h1 | h1 | h1
    · rw [if_pos h1]
      rw [if_neg (by omega), if_neg (by omega)] at hfound
      obtain ⟨hsh, hlk⟩ := ihr hOkR hBalR hfound
      have hhr : height (insert_node key v2 r) = height r := height_of_shape_eq _ _ hsh
      rw [rebalance_noRotation key k0 v0 l _ (by omega) (by omega)]
      constructor
      · simp only [shape, BSTNode.node.injEq]
        repeat' apply And.intro
        all_goals first | trivial | omega | exact hsh
      · simp only [lookup]
        rw [if_neg (by omega), if_neg (by omega)]
        exact hlk
    · subst h1
      rw [if_neg (by omega), if_neg (by omega)]
      rw [rebalance_noRotation k0 k0 v2 l r (by omega) (by omega)]
      constructor
      · simp only [shape, BSTNode.node.injEq]
        repeat' apply And.intro
        all_goals first | trivial | omega
      · simp [lookup]
    · rw [if_neg (by omega), if_pos h1]
      rw [if_neg (by omega), if_pos h1] at hfound
      obtain ⟨hsh, hlk⟩ := ihl hOkL hBalL hfound
      have hhl : height (insert_node key v2 l) = height l := height_of_shape_eq _ _ hsh
      rw [rebalance_noRotation key k0 v0 _ r (by omega) (by omega)]
      constructor
      · simp only [shape, BSTNode.node.injEq]
        repeat' apply And.intro
        all_goals first | trivial | omega | exact hsh
      · simp only [lookup]
        rw [if_neg (by omega), if_pos h1]
        exact hlk

/-! ## Claim theorems -/

/-- C7: inserting 30, 10, 20 in that order into an empty tree goes
through the left-right double-rotation case and produces the tree with
root key 20, left child key 10 and right child key 30 (all with correct
heights). -/
theorem claim_left_right_double_rotation : ∀ (α : Type) (v1 v2 v3 : α),
    insert_node 20 v3 (insert_node 10 v2 (insert_node 30 v1 .nil)) =
      .node 20 v3 2 (.node 10 v2 1 .nil .nil) (.node 30 v1 1 .nil .nil) := by
  intro α v1 v2 v3
  rfl

/-- C8: `insert_avl` reports failure exactly when the tree handle is
NULL; on any non-NULL handle, with any key and value (present or not),
it reports success. -/
theorem claim_insert_failure_iff_null : ∀ (α : Type) (k : Int) (v : α)
    (tree : Option (AVLTree α)),
    ((insert_avl k v tree).1 = false ↔ tree = none) := by
  intro α k v tree
  cases tree <;> simp [insert_avl]

/-- C10: `lookup_avl` on a NULL handle returns `NULL`, and that is the
very same result as looking up a key that is absent from a tree behind
a valid handle — the two cases cannot be told apart from the result. -/
theorem claim_lookup_null_handle : ∀ (α : Type) (k : Int) (t : BSTNode α),
    lookup_avl k (none : Option (AVLTree α)) = none ∧
      (k ∉ inorderKeys t → lookup_avl k (some ⟨t⟩) = lookup_avl k none) := by
  intro α k t
  refine ⟨rfl, fun h => ?_⟩
  simpa [lookup_avl] using lookup_eq_none_of_not_mem k t h

/-- C10 witness: concrete evaluation at a one-node tree and an absent
key. -/
theorem claim_lookup_null_handle_witness :
    (2 : Int) ∉ inorderKeys (BSTNode.node 1 (5 : Nat) 1 .nil .nil) ∧
      lookup_avl 2 (some ⟨BSTNode.node 1 (5 : Nat) 1 .nil .nil⟩) = lookup_avl 2 none :=
  ⟨by decide, (claim_lookup_null_handle Nat 2 (BSTNode.node 1 5 1 .nil .nil)).2 (by decide)⟩

/-- C1: after every sequence of insert and delete operations starting
from an empty tree, every node's left and right subtrees have true
heights that differ by at most one. -/
theorem claim_balance_invariant : ∀ (α : Type) (ops : List (Op α)),
    balancedReal (rootOf (runOps ops)) = true := by
  intro α ops
  obtain ⟨a, b, -⟩ := runOps_good ops
  exact balancedReal_of _ a b

/-- C4: after every sequence of public operations, every node's stored
height field equals `1 + max` of its children's heights, with 0 for an
absent child. -/
theorem claim_height_correctness : ∀ (α : Type) (ops : List (Op α)),
    heightsOk (rootOf (runOps ops)) = true := by
  intro α ops
  exact (runOps_good ops).1

/-- C3: for every tree reachable by public operations from an empty
tree, the in-order traversal lists its keys in strictly ascending
order, and equivalently the node-local BST ordering holds at every
node. -/
theorem claim_bst_ordering : ∀ (α : Type) (ops : List (Op α)),
    List.Pairwise (fun a b => a < b) (inorderKeys (rootOf (runOps ops))) ∧
      bst (rootOf (runOps ops)) = true := by
  intro α ops
  have hb := (runOps_good ops).2.2
  exact ⟨pairwise_inorder _ hb, hb⟩

/-- C5: inserting key K with value V into an ordered tree and then
looking K up returns V. -/
theorem claim_insert_lookup_roundtrip : ∀ (α : Type) (t : BSTNode α) (k : Int) (v : α),
    bst t = true → lookup_avl k (insert_avl k v (some ⟨t⟩)).2 = some v := by
  intro α t k v hb
  have h := lookup_insert_node k k v t hb
  simpa [insert_avl, lookup_avl] using h

/-- C5 witness: concrete round trip through a two-key tree. -/
theorem claim_insert_lookup_roundtrip_witness :
    bst (BSTNode.node 5 (1 : Nat) 1 .nil .nil) = true ∧
      lookup_avl 3 (insert_avl 3 9 (some ⟨BSTNode.node 5 (1 : Nat) 1 .nil .nil⟩)).2 =
        some 9 :=
  ⟨by decide, claim_insert_lookup_roundtrip Nat (BSTNode.node 5 1 1 .nil .nil) 3 9 (by decide)⟩

/-- C9: insertion is framed on its key — looking up any other key after
`insert` gives the same result as before, rotations included. -/
theorem claim_insert_frame : ∀ (α : Type) (t : BSTNode α) (k k2 : Int) (v : α),
    bst t = true → k2 ≠ k →
    lookup_avl k2 (insert_avl k v (some ⟨t⟩)).2 = lookup_avl k2 (some ⟨t⟩) := by
  intro α t k k2 v hb hne
  have h := lookup_insert_node k k2 v t hb
  simp only [insert_avl, lookup_avl]
  rw [h, if_neg (by omega)]

/-- C9 witness: inserting 3 leaves the binding of 5 unchanged. -/
theorem claim_insert_frame_witness :
    bst (BSTNode.node 5 (1 : Nat) 1 .nil .nil) = true ∧ (5 : Int) ≠ 3 ∧
      lookup_avl 5 (insert_avl 3 9 (some ⟨BSTNode.node 5 (1 : Nat) 1 .nil .nil⟩)).2 =
        lookup_avl 5 (some ⟨BSTNode.node 5 (1 : Nat) 1 .nil .nil⟩) :=
  ⟨by decide, by decide,
    claim_insert_frame Nat (BSTNode.node 5 1 1 .nil .nil) 3 5 9 (by decide) (by decide)⟩

/-- C6: inserting an already-present key K with a new value V2 into a
valid tree replaces the value in place: the shape (structure, keys and
heights) is unchanged, hence no new node and the same node count,
lookup of K afterwards yields V2, and the operation reports success. -/
theorem claim_upsert_semantics : ∀ (α : Type) (t : BSTNode α) (k : Int) (v2 : α),
    heightsOk t = true → balanced t = true → bst t = true → k ∈ inorderKeys t →
    shape (insert_node k v2 t) = shape t ∧
      size (insert_node k v2 t) = size t ∧
      lookup_avl k (insert_avl k v2 (some ⟨t⟩)).2 = some v2 ∧
      (insert_avl k v2 (some ⟨t⟩)).1 = true := by
  intro α t k v2 hOk hBal hBst hMem
  have hfound := lookup_ne_none_of_mem k t hBst hMem
  obtain ⟨hsh, hlk⟩ := upsert_shape k v2 t hOk hBal hfound
  exact ⟨hsh, size_of_shape_eq _ _ hsh, by simpa [insert_avl, lookup_avl] using hlk, rfl⟩

/-- C6 witness: overwriting the value at key 2 in a three-node tree. -/
theorem claim_upsert_semantics_witness :
    (heightsOk (BSTNode.node 2 (10 : Nat) 2 (.node 1 (7 : Nat) 1 .nil .nil) (.node 3 (8 : Nat) 1 .nil .nil)) = true ∧
      balanced (BSTNode.node 2 (10 : Nat) 2 (.node 1 (7 : Nat) 1 .nil .nil) (.node 3 (8 : Nat) 1 .nil .nil)) = true ∧
      bst (BSTNode.node 2 (10 : Nat) 2 (.node 1 (7 : Nat) 1 .nil .nil) (.node 3 (8 : Nat) 1 .nil .nil)) = true ∧
      (2 : Int) ∈ inorderKeys (BSTNode.node 2 (10 : Nat) 2 (.node 1 (7 : Nat) 1 .nil .nil) (.node 3 (8 : Nat) 1 .nil .nil))) ∧
    (shape (insert_node 2 (20 : Nat) (BSTNode.node 2 (10 : Nat) 2 (.node 1 (7 : Nat) 1 .nil .nil) (.node 3 (8 : Nat) 1 .nil .nil))) =
        shape (BSTNode.node 2 (10 : Nat) 2 (.node 1 (7 : Nat) 1 .nil .nil) (.node 3 (8 : Nat) 1 .nil .nil)) ∧
      size (insert_node 2 (20 : Nat) (BSTNode.node 2 (10 : Nat) 2 (.node 1 (7 : Nat) 1 .nil .nil) (.node 3 (8 : Nat) 1 .nil .nil))) =
        size (BSTNode.node 2 (10 : Nat) 2 (.node 1 (7 : Nat) 1 .nil .nil) (.node 3 (8 : Nat) 1 .nil .nil)) ∧
      lookup_avl 2 (insert_avl 2 (20 : Nat) (some ⟨BSTNode.node 2 (10 : Nat) 2 (.node 1 (7 : Nat) 1 .nil .nil) (.node 3 (8 : Nat) 1 .nil .nil)⟩)).2 = some 20 ∧
      (insert_avl 2 (20 : Nat) (some ⟨BSTNode.node 2 (10 : Nat) 2 (.node 1 (7 : Nat) 1 .nil .nil) (.node 3 (8 : Nat) 1 .nil .nil)⟩)).1 = true) :=
  ⟨⟨by decide, by decide, by decide, by decide⟩,
    claim_upsert_semantics Nat
      (BSTNode.node 2 10 2 (.node 1 7 1 .nil .nil) (.node 3 8 1 .nil .nil)) 2 20
      (by decide) (by decide) (by decide) (by decide)⟩

/-- C2 (code bug evidence): `delete_avl` is the stub `return NULL;
//TODO`. On a tree that does contain key 1 (with value 7), it answers
"not found" and leaves the key in the tree: the subsequent lookup still
returns the value 7, contradicting the specified delete semantics. -/
theorem claim_delete_stub_behavior :
    (delete_avl 1 (some ⟨insert_node 1 (7 : Nat) .nil⟩)).1 = none ∧
      lookup_avl 1 (delete_avl 1 (some ⟨insert_node 1 (7 : Nat) .nil⟩)).2 = some 7 := by
  exact ⟨rfl, rfl⟩

end AvlC
